import Mathlib

/-!
Verification of the Irene ESP32 audio pipeline core
(`ESP32/firmware/common/src/{utils/ring_buffer.cpp, audio/vad_processor.cpp,
audio/mfcc_frontend.cpp, audio/wake_word_detector.cpp}`).

The C++ classes are embedded shallowly: each stateful object becomes a Lean
structure and each method an explicit state-passing function translated from
the source.  `size_t` indices become `ℕ`; `uint32_t` timestamp subtraction is
modelled modulo `2^32`; `float` values are modelled exactly, as `ℚ` where the
code only does ring operations and comparisons, and as `ℝ` where the code
uses transcendental functions (the MFCC tables and pipeline).
-/

namespace Irene

/-! ## RingBuffer (`utils/ring_buffer.cpp`)

State: `capacity_`, the byte array `buffer_`, `head_`, `tail_`, `full_`.
The byte array is modelled as a total function `ℕ → ℕ`; the mutex is
irrelevant to the sequential semantics.  Allocation is assumed to succeed
(`buffer_ ≠ nullptr`), as the constructor otherwise throws. -/

structure RingBuffer where
  capacity : ℕ
  buffer : ℕ → ℕ
  head : ℕ
  tail : ℕ
  full : Bool

/-- A freshly constructed ring buffer (`RingBuffer::RingBuffer`): zeroed
storage, `head_ = tail_ = 0`, `full_ = false`. -/
def RingBuffer.mkFresh (cap : ℕ) : RingBuffer :=
  ⟨cap, fun _ => 0, 0, 0, false⟩

/-- One iteration of the loop body of `RingBuffer::write` (lines 60–74):
if full, advance `tail_` (drop the oldest byte); store at `head_`; advance
`head_`; set `full_` when the pointers meet. -/
def writeByte (rb : RingBuffer) (b : ℕ) : RingBuffer :=
  let tail1 := if rb.full then (rb.tail + 1) % rb.capacity else rb.tail
  let buf1 := fun p => if p = rb.head then b else rb.buffer p
  let head1 := (rb.head + 1) % rb.capacity
  ⟨rb.capacity, buf1, head1, tail1, rb.full || decide (head1 = tail1)⟩

/-- The write loop of `RingBuffer::write` with its `bytes_written` counter. -/
def writeLoop : RingBuffer → ℕ → List ℕ → RingBuffer × ℕ
  | rb, cnt, [] => (rb, cnt)
  | rb, cnt, b :: rest => writeLoop (writeByte rb b) (cnt + 1) rest

/-- `RingBuffer::write` (lines 51–79).  A null `data` pointer is not
representable; the `length == 0` early return yields 0 bytes written. -/
def RingBuffer.write (rb : RingBuffer) (data : List ℕ) : RingBuffer × ℕ :=
  if data.length = 0 then (rb, 0) else writeLoop rb 0 data

/-- `RingBuffer::empty` (line 156): `(!full_) && (head_ == tail_)`. -/
def RingBuffer.isEmpty (rb : RingBuffer) : Bool :=
  !rb.full && decide (rb.head = rb.tail)

/-- `RingBuffer::available` (lines 140–150). -/
def RingBuffer.available (rb : RingBuffer) : ℕ :=
  if rb.full then rb.capacity
  else if rb.head ≥ rb.tail then rb.head - rb.tail
  else rb.capacity - rb.tail + rb.head

/-- `RingBuffer::free_space` (line 152): `capacity_ - available()`. -/
def RingBuffer.free_space (rb : RingBuffer) : ℕ :=
  rb.capacity - rb.available

/-- The `while (bytes_read < length && !empty())` loop of `RingBuffer::read`
(lines 90–95), returning the final state together with the bytes read. -/
def readLoop : ℕ → RingBuffer → RingBuffer × List ℕ
  | 0, rb => (rb, [])
  | n + 1, rb =>
    if rb.isEmpty then (rb, [])
    else
      let r := readLoop n ⟨rb.capacity, rb.buffer, rb.head, (rb.tail + 1) % rb.capacity, false⟩
      (r.1, rb.buffer rb.tail :: r.2)

/-- `RingBuffer::read` (lines 81–100): reads up to `length` bytes. -/
def RingBuffer.read (rb : RingBuffer) (length : ℕ) : RingBuffer × List ℕ :=
  readLoop length rb

/-- `RingBuffer::skip` (lines 168–184): advance `tail_` by at most
`available()` bytes and clear `full_` when anything was skipped. -/
def RingBuffer.skip (rb : RingBuffer) (bytes : ℕ) : RingBuffer :=
  if bytes = 0 then rb
  else
    let k := min bytes rb.available
    ⟨rb.capacity, rb.buffer, rb.head, (rb.tail + k) % rb.capacity,
      if 0 < k then false else rb.full⟩

/-- `RingBuffer::clear` (lines 130–138). -/
def RingBuffer.clear (rb : RingBuffer) : RingBuffer :=
  ⟨rb.capacity, rb.buffer, 0, 0, false⟩

/-- `RingBuffer::peek` (lines 102–128) copies without mutating; only its
(unchanged) state matters for the invariant claims. -/
def RingBuffer.peekBytes (rb : RingBuffer) (length offset : ℕ) : List ℕ :=
  if length = 0 then []
  else if rb.available ≤ offset then []
  else (List.range (min length (rb.available - offset))).map
    (fun i => rb.buffer ((rb.tail + offset + i) % rb.capacity))

/-- The public mutating/observing operations of `RingBuffer`. -/
inductive RBOp where
  | write (data : List ℕ)
  | read (length : ℕ)
  | peek (length offset : ℕ)
  | skip (bytes : ℕ)
  | clear

/-- The state transition of one public `RingBuffer` operation. -/
def RingBuffer.exec (rb : RingBuffer) : RBOp → RingBuffer
  | .write data => (rb.write data).1
  | .read length => (rb.read length).1
  | .peek _ _ => rb
  | .skip bytes => rb.skip bytes
  | .clear => rb.clear

/-- The state after running a sequence of operations on a fresh buffer. -/
def RingBuffer.execList (rb : RingBuffer) (ops : List RBOp) : RingBuffer :=
  ops.foldl RingBuffer.exec rb

/-- Structural well-formedness maintained by every operation: the two
indices stay below the capacity. -/
def RBWF (rb : RingBuffer) : Prop :=
  rb.head < rb.capacity ∧ rb.tail < rb.capacity

theorem writeByte_capacity (rb : RingBuffer) (b : ℕ) :
    (writeByte rb b).capacity = rb.capacity := rfl

theorem writeByte_wf {rb : RingBuffer} (h : RBWF rb) (b : ℕ) :
    RBWF (writeByte rb b) := by
  obtain ⟨h1, h2⟩ := h
  have hcap : 0 < rb.capacity := by omega
  constructor
  · exact Nat.mod_lt _ hcap
  · show (if rb.full then (rb.tail + 1) % rb.capacity else rb.tail) < rb.capacity
    split
    · exact Nat.mod_lt _ hcap
    · exact h2

theorem writeLoop_wf : ∀ (data : List ℕ) (rb : RingBuffer) (cnt : ℕ),
    RBWF rb → RBWF (writeLoop rb cnt data).1
  | [], _, _, h => h
  | _ :: rest, rb, cnt, h => writeLoop_wf rest (writeByte rb _) (cnt + 1) (writeByte_wf h _)

theorem write_wf {rb : RingBuffer} (h : RBWF rb) (data : List ℕ) :
    RBWF (rb.write data).1 := by
  unfold RingBuffer.write
  split
  · exact h
  · exact writeLoop_wf data rb 0 h

theorem readLoop_wf : ∀ (n : ℕ) (rb : RingBuffer), RBWF rb → RBWF (readLoop n rb).1
  | 0, _, h => h
  | n + 1, rb, h => by
    unfold readLoop
    split
    · exact h
    · exact readLoop_wf n _ ⟨h.1, Nat.mod_lt _ (by have := h.1; omega)⟩

theorem skip_wf {rb : RingBuffer} (h : RBWF rb) (bytes : ℕ) : RBWF (rb.skip bytes) := by
  unfold RingBuffer.skip
  split
  · exact h
  · exact ⟨h.1, Nat.mod_lt _ (by have := h.1; omega)⟩

theorem exec_wf {rb : RingBuffer} (h : RBWF rb) (op : RBOp) : RBWF (rb.exec op) := by
  cases op with
  | write data => exact write_wf h data
  | read length => exact readLoop_wf length rb h
  | peek _ _ => exact h
  | skip bytes => exact skip_wf h bytes
  | clear =>
    exact ⟨Nat.lt_of_le_of_lt (Nat.zero_le _) h.1, Nat.lt_of_le_of_lt (Nat.zero_le _) h.1⟩

theorem execList_wf {rb : RingBuffer} (h : RBWF rb) (ops : List RBOp) :
    RBWF (rb.execList ops) := by
  induction ops generalizing rb with
  | nil => exact h
  | cons op rest ih => exact ih (exec_wf h op)

theorem available_le_capacity {rb : RingBuffer} (h : RBWF rb) :
    rb.available ≤ rb.capacity := by
  obtain ⟨h1, h2⟩ := h
  unfold RingBuffer.available
  split
  · exact Nat.le_refl _
  · split <;> omega

/-! ### Refinement of the ring buffer by an overwrite-on-full queue

`absPush` is the abstract effect of storing one byte: append, dropping the
oldest byte when the queue already holds `capacity` bytes.  `RBRel` relates
the abstract readable contents to a concrete buffer state. -/

/-- Abstract effect of one byte store: append, dropping the oldest byte
when already at capacity. -/
def absPush (cap : ℕ) (l : List ℕ) (b : ℕ) : List ℕ :=
  if l.length < cap then l ++ [b] else l.tail ++ [b]

/-- Abstract effect of writing a byte sequence. -/
def absPushList (cap : ℕ) (l : List ℕ) (data : List ℕ) : List ℕ :=
  data.foldl (absPush cap) l

/-- `l` is the readable content of the concrete state `rb`. -/
def RBRel (cap : ℕ) (l : List ℕ) (rb : RingBuffer) : Prop :=
  rb.capacity = cap ∧ rb.head < cap ∧ rb.tail < cap ∧
  l.length ≤ cap ∧
  rb.head = (rb.tail + l.length) % cap ∧
  rb.full = decide (l.length = cap) ∧
  ∀ i < l.length, l.getD i 0 = rb.buffer ((rb.tail + i) % cap)

theorem add_mod_ne (a : ℕ) {d n : ℕ} (h1 : 0 < d) (h2 : d < n) :
    (a + d) % n ≠ a % n := by
  intro h
  have hmod : Nat.ModEq n a (a + d) := h.symm
  rw [Nat.modEq_iff_dvd' (Nat.le_add_right a d)] at hmod
  rw [Nat.add_sub_cancel_left] at hmod
  exact absurd (Nat.le_of_dvd h1 hmod) (by omega)

theorem rel_writeByte {cap : ℕ} {l : List ℕ} {rb : RingBuffer}
    (hcap : 0 < cap) (h : RBRel cap l rb) (b : ℕ) :
    RBRel cap (absPush cap l b) (writeByte rb b) := by
  obtain ⟨hc, hh, ht, hlen, hhead, hfull, helem⟩ := h
  by_cases hlt : l.length < cap
  · -- not yet full: the oldest byte is kept, `tail_` untouched
    have hfull' : rb.full = false := by
      rw [hfull]; simp; omega
    have htail1 : (if rb.full then (rb.tail + 1) % rb.capacity else rb.tail) = rb.tail := by
      rw [hfull']; simp
    unfold absPush writeByte
    rw [if_pos hlt]
    refine ⟨hc, ?_, ?_, ?_, ?_, ?_, ?_⟩
    · show (rb.head + 1) % rb.capacity < cap
      rw [hc]; exact Nat.mod_lt _ hcap
    · show (if rb.full then (rb.tail + 1) % rb.capacity else rb.tail) < cap
      rw [htail1]; exact ht
    · simp; omega
    · show (rb.head + 1) % rb.capacity =
        ((if rb.full then (rb.tail + 1) % rb.capacity else rb.tail) + (l ++ [b]).length) % cap
      rw [htail1, hc, hhead, Nat.mod_add_mod]
      simp [Nat.add_assoc]
    · show (rb.full || decide ((rb.head + 1) % rb.capacity =
          (if rb.full then (rb.tail + 1) % rb.capacity else rb.tail)))
        = decide ((l ++ [b]).length = cap)
      rw [htail1, hfull', hc, hhead, Nat.mod_add_mod]
      simp only [Bool.false_or, List.length_append, List.length_singleton]
      rcases Nat.lt_or_ge (l.length + 1) cap with hcase | hcase
      · have hne : (rb.tail + (l.length + 1)) % cap ≠ rb.tail := by
          have := add_mod_ne rb.tail (d := l.length + 1) (n := cap) (by omega) hcase
          rwa [Nat.mod_eq_of_lt ht] at this
        have : rb.tail + l.length + 1 = rb.tail + (l.length + 1) := by omega
        rw [this]
        simp [hne]
        omega
      · have heq : l.length + 1 = cap := by omega
        have : rb.tail + l.length + 1 = rb.tail + cap := by omega
        rw [this, Nat.add_mod_right, Nat.mod_eq_of_lt ht]
        simp [heq]
    · intro i hi
      show (l ++ [b]).getD i 0 =
        if ((if rb.full then (rb.tail + 1) % rb.capacity else rb.tail) + i) % cap = rb.head
        then b
        else rb.buffer (((if rb.full then (rb.tail + 1) % rb.capacity else rb.tail) + i) % cap)
      rw [htail1]
      simp only [List.length_append, List.length_singleton] at hi
      rcases Nat.lt_or_ge i l.length with hilt | hige
      · have hne : (rb.tail + i) % cap ≠ rb.head := by
          rw [hhead]
          have harith2 : rb.tail + l.length = (rb.tail + i) + (l.length - i) := by omega
          rw [harith2]
          exact (add_mod_ne (rb.tail + i) (d := l.length - i) (n := cap)
            (by omega) (by omega)).symm
        rw [if_neg hne, List.getD_append _ _ _ _ hilt]
        exact helem i hilt
      · have hieq : i = l.length := by omega
        subst hieq
        rw [List.getD_append_right _ _ _ _ (Nat.le_refl _)]
        simp only [Nat.sub_self, List.getD_cons_zero]
        rw [if_pos hhead.symm]
  · -- full: the write overwrites the oldest byte and advances `tail_`
    have hleq : l.length = cap := by omega
    have hfull' : rb.full = true := by rw [hfull]; simp [hleq]
    have hht : rb.head = rb.tail := by
      rw [hhead, hleq, Nat.add_mod_right, Nat.mod_eq_of_lt ht]
    obtain ⟨a, l', rfl⟩ : ∃ a l', l = a :: l' := by
      cases l with
      | nil => simp at hleq; omega
      | cons a l' => exact ⟨a, l', rfl⟩
    have hl' : l'.length = cap - 1 := by simp at hleq ⊢; omega
    unfold absPush writeByte
    rw [if_neg hlt]
    have htail1 : (if rb.full then (rb.tail + 1) % rb.capacity else rb.tail)
        = (rb.tail + 1) % cap := by rw [hfull', hc]; simp
    refine ⟨hc, ?_, ?_, ?_, ?_, ?_, ?_⟩
    · show (rb.head + 1) % rb.capacity < cap
      rw [hc]; exact Nat.mod_lt _ hcap
    · rw [htail1]; exact Nat.mod_lt _ hcap
    · simp; omega
    · show (rb.head + 1) % rb.capacity =
        ((if rb.full then (rb.tail + 1) % rb.capacity else rb.tail)
          + ((a :: l').tail ++ [b]).length) % cap
      rw [htail1, hc, hht]
      simp only [List.tail_cons, List.length_append, List.length_singleton, hl']
      rw [Nat.mod_add_mod]
      have harith : rb.tail + 1 + (cap - 1 + 1) = rb.tail + 1 + cap := by omega
      rw [harith, Nat.add_mod_right]
    · show (rb.full || _) = decide (((a :: l').tail ++ [b]).length = cap)
      rw [hfull']
      simp [hl']
      omega
    · intro i hi
      show ((a :: l').tail ++ [b]).getD i 0 =
        if ((if rb.full then (rb.tail + 1) % rb.capacity else rb.tail) + i) % cap = rb.head
        then b
        else rb.buffer (((if rb.full then (rb.tail + 1) % rb.capacity else rb.tail) + i) % cap)
      rw [htail1]
      simp only [List.tail_cons, List.length_append, List.length_singleton, hl'] at hi ⊢
      rcases Nat.lt_or_ge i (cap - 1) with hilt | hige
      · have hidx : ((rb.tail + 1) % cap + i) % cap = (rb.tail + (i + 1)) % cap := by
          rw [Nat.mod_add_mod]
          congr 1
          omega
        have hne : (rb.tail + (i + 1)) % cap ≠ rb.head := by
          rw [hht]
          conv_rhs => rw [← Nat.mod_eq_of_lt ht]
          exact add_mod_ne rb.tail (by omega) (by omega)
        rw [hidx, if_neg hne, List.getD_append _ _ _ _ (show i < l'.length by omega)]
        have hhtl := helem (i + 1) (by simp [hl']; omega)
        simpa [List.getD_cons_succ] using hhtl
      · have hieq : i = cap - 1 := by omega
        subst hieq
        rw [List.getD_append_right _ _ _ _ (show l'.length ≤ cap - 1 by omega)]
        simp only [hl', Nat.sub_self, List.getD_cons_zero]
        have hidx : ((rb.tail + 1) % cap + (cap - 1)) % cap = rb.head := by
          rw [Nat.mod_add_mod, hht]
          have harith3 : rb.tail + 1 + (cap - 1) = rb.tail + cap := by omega
          rw [harith3, Nat.add_mod_right, Nat.mod_eq_of_lt ht]
        rw [if_pos hidx]

theorem writeLoop_count : ∀ (data : List ℕ) (rb : RingBuffer) (cnt : ℕ),
    (writeLoop rb cnt data).2 = cnt + data.length
  | [], _, _ => by simp [writeLoop]
  | b :: rest, rb, cnt => by
    have h := writeLoop_count rest (writeByte rb b) (cnt + 1)
    simp only [writeLoop, h, List.length_cons]
    omega

/-- `RingBuffer::write` always reports the full input length as written. -/
theorem write_length (rb : RingBuffer) (data : List ℕ) :
    (rb.write data).2 = data.length := by
  unfold RingBuffer.write
  split
  · next h => simp [h]
  · rw [writeLoop_count]
    omega

theorem writeLoop_state : ∀ (data : List ℕ) (rb : RingBuffer) (cnt : ℕ),
    (writeLoop rb cnt data).1 = data.foldl writeByte rb
  | [], _, _ => rfl
  | b :: rest, rb, cnt => writeLoop_state rest (writeByte rb b) (cnt + 1)

theorem rel_foldl {cap : ℕ} (hcap : 0 < cap) :
    ∀ (data : List ℕ) {l : List ℕ} {rb : RingBuffer}, RBRel cap l rb →
      RBRel cap (absPushList cap l data) (data.foldl writeByte rb)
  | [], _, _, h => h
  | b :: rest, _, _, h => rel_foldl hcap rest (rel_writeByte hcap h b)

/-- Writing a byte stream into the empty abstract queue keeps exactly the
last `cap` bytes, in order. -/
theorem absPushList_drop {cap : ℕ} (hcap : 0 < cap) (ws : List ℕ) :
    absPushList cap [] ws = ws.drop (ws.length - cap) := by
  induction ws using List.reverseRecOn with
  | nil => simp [absPushList]
  | append_singleton l a ih =>
    unfold absPushList at ih ⊢
    rw [List.foldl_append]
    simp only [List.foldl_cons, List.foldl_nil]
    rw [ih]
    by_cases hlt : l.length < cap
    · have h0 : l.length - cap = 0 := by omega
      rw [h0, List.drop_zero]
      unfold absPush
      rw [if_pos hlt]
      have h1 : (l ++ [a]).length - cap = 0 := by simp; omega
      rw [h1, List.drop_zero]
    · have hlen : (l.drop (l.length - cap)).length = cap := by simp; omega
      unfold absPush
      rw [if_neg (by omega)]
      rw [List.tail_drop]
      have h2 : (l ++ [a]).length - cap = l.length - cap + 1 := by simp; omega
      rw [h2, List.drop_append_of_le_length (by omega)]

theorem rel_isEmpty {cap : ℕ} {l : List ℕ} {rb : RingBuffer}
    (hcap : 0 < cap) (h : RBRel cap l rb) : rb.isEmpty = true ↔ l = [] := by
  obtain ⟨hc, hh, ht, hlen, hhead, hfull, helem⟩ := h
  unfold RingBuffer.isEmpty
  simp only [Bool.and_eq_true, Bool.not_eq_true', decide_eq_true_eq]
  constructor
  · rintro ⟨hf, hht⟩
    rw [hfull] at hf
    simp only [decide_eq_false_iff_not] at hf
    by_contra hne
    have hpos : 0 < l.length := List.length_pos.mpr hne
    have hmod : (rb.tail + l.length) % cap = rb.tail % cap := by
      rw [← hhead, hht, Nat.mod_eq_of_lt ht]
    exact add_mod_ne rb.tail hpos (by omega) hmod
  · rintro rfl
    simp only [List.length_nil] at hhead hfull
    refine ⟨?_, ?_⟩
    · rw [hfull, decide_eq_false_iff_not]
      omega
    · rw [hhead, Nat.add_zero, Nat.mod_eq_of_lt ht]

theorem rel_readLoop {cap : ℕ} (hcap : 0 < cap) :
    ∀ (k : ℕ) {l : List ℕ} {rb : RingBuffer}, RBRel cap l rb →
      (readLoop k rb).2 = l.take k ∧ RBRel cap (l.drop k) (readLoop k rb).1 := by
  intro k
  induction k with
  | zero => intro l rb h; exact ⟨by simp [readLoop], by simpa [readLoop] using h⟩
  | succ n ih =>
    intro l rb h
    have hemp := rel_isEmpty hcap h
    by_cases he : rb.isEmpty = true
    · have hl : l = [] := hemp.mp he
      subst hl
      refine ⟨?_, ?_⟩
      · show (readLoop (n+1) rb).2 = [].take (n+1)
        unfold readLoop
        rw [if_pos he]
        simp
      · show RBRel cap ([].drop (n+1)) (readLoop (n+1) rb).1
        unfold readLoop
        rw [if_pos he]
        simpa using h
    · obtain ⟨a, l', rfl⟩ : ∃ a l', l = a :: l' := by
        cases l with
        | nil => exact absurd (hemp.mpr rfl) he
        | cons a l' => exact ⟨a, l', rfl⟩
      obtain ⟨hc, hh, ht, hlen, hhead, hfull, helem⟩ := h
      have h2 : RBRel cap l'
          ⟨rb.capacity, rb.buffer, rb.head, (rb.tail + 1) % rb.capacity, false⟩ := by
        refine ⟨hc, hh, ?_, ?_, ?_, ?_, ?_⟩
        · show (rb.tail + 1) % rb.capacity < cap
          rw [hc]; exact Nat.mod_lt _ hcap
        · simp only [List.length_cons] at hlen; omega
        · show rb.head = ((rb.tail + 1) % rb.capacity + l'.length) % cap
          rw [hc, Nat.mod_add_mod, hhead]
          congr 1
          simp only [List.length_cons]
          omega
        · show (false : Bool) = decide (l'.length = cap)
          symm
          rw [decide_eq_false_iff_not]
          simp only [List.length_cons] at hlen
          intro hcontra
          rw [hfull] at hfull
          omega
        · intro i hi
          show l'.getD i 0 = rb.buffer (((rb.tail + 1) % rb.capacity + i) % cap)
          rw [hc, Nat.mod_add_mod]
          have hgd := helem (i + 1) (by simp only [List.length_cons]; omega)
          rw [List.getD_cons_succ] at hgd
          rw [hgd]
          have harith : rb.tail + 1 + i = rb.tail + (i + 1) := by omega
          rw [harith]
      obtain ⟨ih1, ih2⟩ := ih h2
      refine ⟨?_, ?_⟩
      · show (readLoop (n+1) rb).2 = (a :: l').take (n+1)
        unfold readLoop
        rw [if_neg he]
        simp only
        rw [ih1, List.take_succ_cons]
        congr 1
        have hgd0 := helem 0 (by simp)
        simpa [Nat.mod_eq_of_lt ht] using hgd0.symm
      · show RBRel cap ((a :: l').drop (n+1)) (readLoop (n+1) rb).1
        unfold readLoop
        rw [if_neg he]
        simpa [List.drop_succ_cons] using ih2

/-- C2: `RingBuffer::write` returns exactly the input length for every buffer
state, and writing `capacity + k` bytes (`k > 0`) into a fresh (empty) buffer
leaves the buffer full with readable content equal to the last `capacity`
bytes written, in their original order. -/
theorem c2_write_returns_length_and_overwrites_oldest
    (cap k : ℕ) (ws data : List ℕ) (rb0 : RingBuffer)
    (hcap : 0 < cap) (hk : 0 < k) (hlen : ws.length = cap + k) :
    (rb0.write data).2 = data.length ∧
    ((RingBuffer.mkFresh cap).write ws).1.full = true ∧
    (((RingBuffer.mkFresh cap).write ws).1.read cap).2 = ws.drop k := by
  have hrel0 : RBRel cap [] (RingBuffer.mkFresh cap) := by
    refine ⟨rfl, hcap, hcap, by simp, ?_, ?_, by simp⟩
    · show (0:ℕ) = (0 + 0) % cap
      simp
    · show (false : Bool) = decide (([] : List ℕ).length = cap)
      symm
      rw [decide_eq_false_iff_not]
      simp only [List.length_nil]
      omega
  have hwsne : ¬ ws.length = 0 := by omega
  have hw : (RingBuffer.mkFresh cap).write ws = writeLoop (RingBuffer.mkFresh cap) 0 ws := by
    unfold RingBuffer.write
    rw [if_neg hwsne]
  have hstate : (writeLoop (RingBuffer.mkFresh cap) 0 ws).1
      = ws.foldl writeByte (RingBuffer.mkFresh cap) := writeLoop_state ws _ 0
  have hrel1 := rel_foldl hcap ws hrel0
  rw [absPushList_drop hcap] at hrel1
  have hdk : ws.length - cap = k := by omega
  rw [hdk] at hrel1
  have hLlen : (ws.drop k).length = cap := by simp; omega
  refine ⟨write_length rb0 data, ?_, ?_⟩
  · rw [hw, hstate, hrel1.2.2.2.2.2.1]
    simp [hLlen]
  · obtain ⟨hr1, _⟩ := rel_readLoop hcap cap hrel1
    rw [hw, hstate]
    show (readLoop cap (ws.foldl writeByte (RingBuffer.mkFresh cap))).2 = ws.drop k
    rw [hr1, ← hLlen, List.take_length]

/-- Witness for C2: capacity 3, writing 5 bytes leaves the last 3 readable. -/
theorem c2_write_returns_length_and_overwrites_oldest_witness :
    0 < 3 ∧ 0 < 2 ∧ ([1,2,3,4,5] : List ℕ).length = 3 + 2 ∧
    (((RingBuffer.mkFresh 2).write [7,8]).2 = ([7,8] : List ℕ).length ∧
     ((RingBuffer.mkFresh 3).write [1,2,3,4,5]).1.full = true ∧
     (((RingBuffer.mkFresh 3).write [1,2,3,4,5]).1.read 3).2 = ([1,2,3,4,5] : List ℕ).drop 2) :=
  ⟨by decide, by decide, by decide,
    c2_write_returns_length_and_overwrites_oldest 3 2 [1,2,3,4,5] [7,8]
      (RingBuffer.mkFresh 2) (by decide) (by decide) (by decide)⟩

/-- C5: for every operation sequence on a fresh buffer,
`available() + free_space() == capacity()`, `empty()` holds iff the buffer is
not full and the pointers coincide, and `full()` implies
`available() == capacity()`. -/
theorem c5_conservation_invariant (cap : ℕ) (ops : List RBOp) (hcap : 0 < cap) :
    ((RingBuffer.mkFresh cap).execList ops).available
        + ((RingBuffer.mkFresh cap).execList ops).free_space
      = ((RingBuffer.mkFresh cap).execList ops).capacity ∧
    (((RingBuffer.mkFresh cap).execList ops).isEmpty = true ↔
      (((RingBuffer.mkFresh cap).execList ops).full = false ∧
        ((RingBuffer.mkFresh cap).execList ops).head
          = ((RingBuffer.mkFresh cap).execList ops).tail)) ∧
    (((RingBuffer.mkFresh cap).execList ops).full = true →
      ((RingBuffer.mkFresh cap).execList ops).available
        = ((RingBuffer.mkFresh cap).execList ops).capacity) := by
  have hwf : RBWF ((RingBuffer.mkFresh cap).execList ops) := execList_wf ⟨hcap, hcap⟩ ops
  have hle := available_le_capacity hwf
  refine ⟨?_, ?_, ?_⟩
  · unfold RingBuffer.free_space
    omega
  · unfold RingBuffer.isEmpty
    simp
  · intro hf
    unfold RingBuffer.available
    simp [hf]

/-- Witness for C5 on a concrete mixed operation sequence. -/
theorem c5_conservation_invariant_witness :
    0 < 2 ∧
    (((RingBuffer.mkFresh 2).execList
        [.write [1,2,3], .read 1, .peek 1 0, .skip 1, .write [4], .clear]).available
        + ((RingBuffer.mkFresh 2).execList
        [.write [1,2,3], .read 1, .peek 1 0, .skip 1, .write [4], .clear]).free_space
      = ((RingBuffer.mkFresh 2).execList
        [.write [1,2,3], .read 1, .peek 1 0, .skip 1, .write [4], .clear]).capacity ∧
    (((RingBuffer.mkFresh 2).execList
        [.write [1,2,3], .read 1, .peek 1 0, .skip 1, .write [4], .clear]).isEmpty = true ↔
      (((RingBuffer.mkFresh 2).execList
        [.write [1,2,3], .read 1, .peek 1 0, .skip 1, .write [4], .clear]).full = false ∧
        ((RingBuffer.mkFresh 2).execList
        [.write [1,2,3], .read 1, .peek 1 0, .skip 1, .write [4], .clear]).head
          = ((RingBuffer.mkFresh 2).execList
        [.write [1,2,3], .read 1, .peek 1 0, .skip 1, .write [4], .clear]).tail)) ∧
    (((RingBuffer.mkFresh 2).execList
        [.write [1,2,3], .read 1, .peek 1 0, .skip 1, .write [4], .clear]).full = true →
      ((RingBuffer.mkFresh 2).execList
        [.write [1,2,3], .read 1, .peek 1 0, .skip 1, .write [4], .clear]).available
        = ((RingBuffer.mkFresh 2).execList
        [.write [1,2,3], .read 1, .peek 1 0, .skip 1, .write [4], .clear]).capacity)) :=
  ⟨by decide,
    c5_conservation_invariant 2
      [.write [1,2,3], .read 1, .peek 1 0, .skip 1, .write [4], .clear] (by decide)⟩

/-! ## VADProcessor (`audio/vad_processor.cpp`)

The hysteresis state machine (`apply_hysteresis`, lines 177–199) is embedded
over the fields it touches: `voice_detected_`, the two consecutive-frame
counters, and the two decision thresholds.  The raw per-frame decision
(`process_frame`, lines 79–93) is embedded over `ℚ`, taking the smoothed
energy and zero-crossing rate as inputs — neither depends on the
sensitivity, so fixing them models a fixed frame and energy history. -/

structure VadHyst where
  voiceDetected : Bool
  consecutiveVoiceFrames : ℕ
  consecutiveSilenceFrames : ℕ
  framesForVoiceDecision : ℕ
  framesForSilenceDecision : ℕ

/-- `VADProcessor::apply_hysteresis` (lines 177–199). -/
def apply_hysteresis (s : VadHyst) (current_detection : Bool) : VadHyst :=
  if current_detection then
    let cv := s.consecutiveVoiceFrames + 1
    { s with
      consecutiveVoiceFrames := cv
      consecutiveSilenceFrames := 0
      voiceDetected :=
        if ¬ s.voiceDetected ∧ s.framesForVoiceDecision ≤ cv then true
        else s.voiceDetected }
  else
    let cs := s.consecutiveSilenceFrames + 1
    { s with
      consecutiveSilenceFrames := cs
      consecutiveVoiceFrames := 0
      voiceDetected :=
        if s.voiceDetected ∧ s.framesForSilenceDecision ≤ cs then false
        else s.voiceDetected }

/-- The constructor state (lines 17–23): not detected, counters zero. -/
def vadStart (nv ns : ℕ) : VadHyst := ⟨false, 0, 0, nv, ns⟩

/-- Feeding a sequence of raw per-frame decisions through the hysteresis. -/
def vadRun (s : VadHyst) (frames : List Bool) : VadHyst :=
  frames.foldl apply_hysteresis s

theorem vadRun_append (s : VadHyst) (l1 l2 : List Bool) :
    vadRun s (l1 ++ l2) = vadRun (vadRun s l1) l2 :=
  List.foldl_append _ _ _ _

theorem apply_hysteresis_true (nv ns m : ℕ) :
    apply_hysteresis ⟨decide (nv ≤ m), m, 0, nv, ns⟩ true
      = ⟨decide (nv ≤ m + 1), m + 1, 0, nv, ns⟩ := by
  by_cases h1 : nv ≤ m
  · have d1 : decide (nv ≤ m) = true := by simpa using h1
    have d2 : decide (nv ≤ m + 1) = true := by simp; omega
    simp [apply_hysteresis, d1, d2]
  · have d1 : decide (nv ≤ m) = false := by simpa using h1
    by_cases h2 : nv ≤ m + 1
    · have d2 : decide (nv ≤ m + 1) = true := by simpa using h2
      simp [apply_hysteresis, d1, d2, h2]
    · have d2 : decide (nv ≤ m + 1) = false := by simpa using h2
      simp [apply_hysteresis, d1, d2, h2]

/-- State after `m` consecutive raw-voice frames from the start state. -/
theorem vadRun_true_state (nv ns m : ℕ) (h : 1 ≤ nv) :
    vadRun (vadStart nv ns) (List.replicate m true)
      = ⟨decide (nv ≤ m), m, 0, nv, ns⟩ := by
  induction m with
  | zero =>
    have d0 : decide (nv ≤ 0) = false := by simp; omega
    simp [vadRun, vadStart, d0]
    omega
  | succ m ih =>
    rw [List.replicate_succ' (n := m), vadRun_append, ih]
    show apply_hysteresis ⟨decide (nv ≤ m), m, 0, nv, ns⟩ true = _
    rw [apply_hysteresis_true]

theorem apply_hysteresis_false (nv ns j : ℕ) :
    apply_hysteresis ⟨decide (j < ns), 0, j, nv, ns⟩ false
      = ⟨decide (j + 1 < ns), 0, j + 1, nv, ns⟩ := by
  by_cases h1 : j < ns
  · have d1 : decide (j < ns) = true := by simpa using h1
    by_cases h2 : j + 1 < ns
    · have d2 : decide (j + 1 < ns) = true := by simpa using h2
      simp [apply_hysteresis, d1, d2]
      omega
    · have d2 : decide (j + 1 < ns) = false := by simpa using h2
      simp [apply_hysteresis, d1, d2]
      omega
  · have d1 : decide (j < ns) = false := by simpa using h1
    have d2 : decide (j + 1 < ns) = false := by simp; omega
    simp [apply_hysteresis, d1, d2]

/-- State after `j ≥ 1` consecutive raw-silence frames from a detected
state with a clean silence counter. -/
theorem vadRun_false_state (nv ns k j : ℕ) (h2 : 1 ≤ ns) (hj : 1 ≤ j) :
    vadRun ⟨true, k, 0, nv, ns⟩ (List.replicate j false)
      = ⟨decide (j < ns), 0, j, nv, ns⟩ := by
  induction j with
  | zero => omega
  | succ j ih =>
    rcases Nat.eq_or_lt_of_le hj with hj1 | hj1
    · -- j + 1 = 1: the first silence frame
      have hj0 : j = 0 := by omega
      subst hj0
      show vadRun ⟨true, k, 0, nv, ns⟩ (List.replicate 1 false) = _
      by_cases hns : ns ≤ 1
      · have d : decide (1 < ns) = false := by simp; omega
        simp [vadRun, apply_hysteresis, d]
        omega
      · have d : decide (1 < ns) = true := by simp; omega
        simp [vadRun, apply_hysteresis, d]
        omega
    · have hj' : 1 ≤ j := by omega
      rw [List.replicate_succ' (n := j), vadRun_append, ih hj']
      show apply_hysteresis ⟨decide (j < ns), 0, j, nv, ns⟩ false = _
      rw [apply_hysteresis_false nv ns j]

/-- C3: from the undetected start state, `frames_for_voice_decision ≥ 1`
consecutive raw-voice frames flip `is_voice_detected()` to true exactly when
the counter reaches the threshold and not earlier; afterwards the state only
flips back once `frames_for_silence_decision` consecutive raw-silence frames
have arrived (in particular a single silence frame does not revert it, as
the silence threshold is at least 2). -/
theorem c3_vad_hysteresis (nv ns k m j : ℕ)
    (h1 : 1 ≤ nv) (h2 : 2 ≤ ns) (h3 : nv ≤ k) :
    ((vadRun (vadStart nv ns) (List.replicate m true)).voiceDetected
        = decide (nv ≤ m)) ∧
    ((vadRun (vadRun (vadStart nv ns) (List.replicate k true))
        (List.replicate j false)).voiceDetected = decide (j < ns)) := by
  constructor
  · rw [vadRun_true_state nv ns m h1]
  · rw [vadRun_true_state nv ns k h1]
    have dk : decide (nv ≤ k) = true := by simpa using h3
    rw [dk]
    rcases Nat.eq_zero_or_pos j with hj | hj
    · subst hj
      have d0 : decide (0 < ns) = true := by simp; omega
      simp [vadRun, d0]
    · rw [vadRun_false_state nv ns k j (by omega) hj]

/-- Witness for C3 with the default thresholds (2 voice / 5 silence frames). -/
theorem c3_vad_hysteresis_witness :
    1 ≤ 2 ∧ 2 ≤ 5 ∧ 2 ≤ 3 ∧
    (((vadRun (vadStart 2 5) (List.replicate 2 true)).voiceDetected
        = decide (2 ≤ 2)) ∧
     ((vadRun (vadRun (vadStart 2 5) (List.replicate 3 true))
        (List.replicate 1 false)).voiceDetected = decide (1 < 5))) :=
  ⟨by decide, by decide, by decide, c3_vad_hysteresis 2 5 3 2 1 (by decide) (by decide) (by decide)⟩

/-- The adaptive threshold of `VADProcessor::process_frame` (line 80):
`energy_threshold_ * (2.0f - sensitivity_)`. -/
def adaptive_threshold (energy_threshold sensitivity : ℚ) : ℚ :=
  energy_threshold * (2 - sensitivity)

/-- The raw (pre-hysteresis) decision of `VADProcessor::process_frame`
(lines 83–93): energy above the adaptive threshold, or zero-crossing rate
above 0.1 with energy above half the adaptive threshold. -/
def raw_detection (smoothed_energy zcr energy_threshold sensitivity : ℚ) : Bool :=
  let t := adaptive_threshold energy_threshold sensitivity
  let d1 := if t < smoothed_energy then true else false
  if 1/10 < zcr ∧ t * (1/2) < smoothed_energy then true else d1

/-- `VADProcessor::set_sensitivity` (lines 108–111): clamp to `[0, 1]`. -/
def set_sensitivity (sensitivity : ℚ) : ℚ := max 0 (min 1 sensitivity)

theorem raw_detection_eq_true_iff (e z eth s : ℚ) :
    raw_detection e z eth s = true ↔
      (1/10 < z ∧ adaptive_threshold eth s * (1/2) < e) ∨ adaptive_threshold eth s < e := by
  unfold raw_detection
  simp only []
  split_ifs with hc hd <;> simp_all

/-- C7: the adaptive threshold is non-increasing in the sensitivity when the
energy threshold is non-negative (the setter floors it at 0.001), hence the
raw detection is monotone non-decreasing in the sensitivity for a fixed
frame and energy history, and the sensitivity setter clamps to `[0, 1]`. -/
theorem c7_sensitivity_monotone (eth s s' e z x : ℚ)
    (hth : 0 ≤ eth) (hss : s ≤ s') :
    adaptive_threshold eth s' ≤ adaptive_threshold eth s ∧
    (raw_detection e z eth s = true → raw_detection e z eth s' = true) ∧
    0 ≤ set_sensitivity x ∧ set_sensitivity x ≤ 1 := by
  have hmono : adaptive_threshold eth s' ≤ adaptive_threshold eth s := by
    unfold adaptive_threshold
    have h2 : (2 - s') ≤ (2 - s) := by linarith
    exact mul_le_mul_of_nonneg_left h2 hth
  refine ⟨hmono, ?_, ?_, ?_⟩
  · intro h
    rw [raw_detection_eq_true_iff] at h ⊢
    rcases h with ⟨hz, he⟩ | he
    · exact Or.inl ⟨hz, by nlinarith⟩
    · exact Or.inr (by linarith)
  · exact le_max_left 0 _
  · exact max_le (by norm_num) (min_le_left 1 x)

/-- Witness for C7 at sensitivities 0.2 ≤ 0.9 and threshold 0.01. -/
theorem c7_sensitivity_monotone_witness :
    (0 : ℚ) ≤ 1/100 ∧ (1/5 : ℚ) ≤ 9/10 ∧
    (adaptive_threshold (1/100) (9/10) ≤ adaptive_threshold (1/100) (1/5) ∧
     (raw_detection 1 0 (1/100) (1/5) = true → raw_detection 1 0 (1/100) (9/10) = true) ∧
     (0 : ℚ) ≤ set_sensitivity 3 ∧ set_sensitivity (3 : ℚ) ≤ 1) :=
  ⟨by norm_num, by norm_num,
    c7_sensitivity_monotone (1/100) (1/5) (9/10) 1 0 3 (by norm_num) (by norm_num)⟩

/-! ## WakeWordDetector detection validation (`audio/wake_word_detector.cpp`)

`validate_detection` (lines 339–368) reads `esp_timer_get_time() / 1000`
into a `uint32_t`; the subtraction at line 354 is therefore modulo `2^32`.
Confidence values are only compared against the threshold, so they are
embedded as `ℚ`. -/

structure ValidationState where
  detectionStartTime : ℕ
  consecutiveDetections : ℕ
  deriving DecidableEq

/-- `uint32_t` difference `current - start` (line 354), for operands below
`2^32`. -/
def dur32 (start current : ℕ) : ℕ := (current + 2 ^ 32 - start) % 2 ^ 32

theorem dur32_eq {start current : ℕ} (h1 : start ≤ current)
    (h2 : current - start < 2 ^ 32) : dur32 start current = current - start := by
  unfold dur32
  have heq : current + 2 ^ 32 - start = (current - start) + 2 ^ 32 := by omega
  rw [heq, Nat.add_mod_right, Nat.mod_eq_of_lt h2]

/-- `WakeWordDetector::validate_detection` (lines 339–368) with the current
time in milliseconds passed explicitly. -/
def validate_detection (threshold : ℚ) (trigger_duration_ms : ℕ)
    (s : ValidationState) (confidence : ℚ) (current_time : ℕ) :
    ValidationState × Bool :=
  if threshold ≤ confidence then
    let s1 : ValidationState :=
      if s.detectionStartTime = 0 then ⟨current_time, 1⟩
      else ⟨s.detectionStartTime, s.consecutiveDetections + 1⟩
    if trigger_duration_ms ≤ dur32 s1.detectionStartTime current_time then
      (⟨0, 0⟩, true)
    else (s1, false)
  else (⟨0, 0⟩, false)

/-- Validation state before inference call `n`, for the confidence stream
`conf` and per-call timestamps `t`, starting from the reset state
(`detection_start_time_ = 0`, `consecutive_detections_ = 0`). -/
def vstateAfter (th : ℚ) (D : ℕ) (conf : ℕ → ℚ) (t : ℕ → ℕ) : ℕ → ValidationState
  | 0 => ⟨0, 0⟩
  | n + 1 => (validate_detection th D (vstateAfter th D conf t n) (conf n) (t n)).1

/-- Return value of `validate_detection` at inference call `n`. -/
def vresult (th : ℚ) (D : ℕ) (conf : ℕ → ℚ) (t : ℕ → ℕ) (n : ℕ) : Bool :=
  (validate_detection th D (vstateAfter th D conf t n) (conf n) (t n)).2

theorem validate_start_zero {th c : ℚ} (D : ℕ) (time m : ℕ) (hc : th ≤ c) :
    validate_detection th D ⟨0, m⟩ c time =
      if D ≤ dur32 time time then (⟨0, 0⟩, true) else (⟨time, 1⟩, false) := by
  unfold validate_detection
  rw [if_pos hc]
  simp

theorem validate_candidate {th c : ℚ} (D : ℕ) (time t0 n : ℕ)
    (hc : th ≤ c) (h0 : t0 ≠ 0) :
    validate_detection th D ⟨t0, n⟩ c time =
      if D ≤ dur32 t0 time then (⟨0, 0⟩, true) else (⟨t0, n + 1⟩, false) := by
  unfold validate_detection
  rw [if_pos hc]
  simp [h0]

theorem validate_low {th c : ℚ} (D : ℕ) (time : ℕ) (s : ValidationState)
    (hc : ¬ th ≤ c) : validate_detection th D s c time = (⟨0, 0⟩, false) := by
  unfold validate_detection
  rw [if_neg hc]

theorem dur32_self (time : ℕ) (_h : time < 2 ^ 32) : dur32 time time = 0 := by
  rw [dur32_eq (Nat.le_refl _) (by omega)]
  exact Nat.sub_self time

/-- C1 (amended): with the first above-threshold inference at a nonzero
clock time, a stream holding at or above the threshold fires exactly at the
first inference whose elapsed time since the first crossing reaches
`trigger_duration_ms`, resets to idle on that same call, and (for a positive
trigger duration) does not re-fire on the immediately following call. -/
theorem c1_confirm_and_reset (th : ℚ) (D : ℕ) (conf : ℕ → ℚ) (t : ℕ → ℕ) (i : ℕ)
    (hconf : ∀ j ≤ i + 1, th ≤ conf j)
    (hmono : ∀ b ≤ i + 1, ∀ a ≤ b, t a ≤ t b)
    (hbound : ∀ j ≤ i + 1, t j < 2 ^ 32)
    (ht0 : 0 < t 0)
    (hfire : D ≤ t i - t 0)
    (hfirst : ∀ j < i, t j - t 0 < D) :
    (∀ j < i, vresult th D conf t j = false) ∧
    vresult th D conf t i = true ∧
    vstateAfter th D conf t (i + 1) = ⟨0, 0⟩ ∧
    (0 < D → vresult th D conf t (i + 1) = false) := by
  have hd32 : ∀ j ≤ i + 1, dur32 (t 0) (t j) = t j - t 0 := by
    intro j hj
    exact dur32_eq (hmono j hj 0 (Nat.zero_le _)) (by have := hbound j hj; omega)
  -- the call at every pre-firing index keeps the candidate and returns false
  have hcall : ∀ j < i, validate_detection th D (vstateAfter th D conf t j)
      (conf j) (t j) = (⟨t 0, j + 1⟩, false) := by
    intro j hj
    induction j with
    | zero =>
      have hD0 : 0 < D := by have := hfirst 0 hj; omega
      show validate_detection th D ⟨0, 0⟩ (conf 0) (t 0) = _
      rw [validate_start_zero D (t 0) 0 (hconf 0 (by omega))]
      rw [dur32_self (t 0) (hbound 0 (by omega))]
      rw [if_neg (by omega)]
    | succ j ih =>
      have hstate : vstateAfter th D conf t (j + 1) = ⟨t 0, j + 1⟩ := by
        show (validate_detection th D (vstateAfter th D conf t j) (conf j) (t j)).1 = _
        rw [ih (by omega)]
      rw [hstate, validate_candidate D (t (j + 1)) (t 0) (j + 1)
        (hconf (j + 1) (by omega)) (by omega)]
      rw [hd32 (j + 1) (by omega), if_neg (by have := hfirst (j + 1) hj; omega)]
  have hstatei : vstateAfter th D conf t i =
      if i = 0 then ⟨0, 0⟩ else ⟨t 0, i⟩ := by
    cases i with
    | zero => rfl
    | succ i' =>
      rw [if_neg (Nat.succ_ne_zero i')]
      show (validate_detection th D (vstateAfter th D conf t i') (conf i') (t i')).1 = _
      rw [hcall i' (by omega)]
  have hfirei : validate_detection th D (vstateAfter th D conf t i)
      (conf i) (t i) = (⟨0, 0⟩, true) := by
    rw [hstatei]
    cases i with
    | zero =>
      rw [if_pos rfl, validate_start_zero D (t 0) 0 (hconf 0 (by omega))]
      rw [dur32_self (t 0) (hbound 0 (by omega))]
      rw [if_pos (by have := hfire; omega)]
    | succ i' =>
      rw [if_neg (Nat.succ_ne_zero i'),
        validate_candidate D (t (i' + 1)) (t 0) (i' + 1)
          (hconf (i' + 1) (by omega)) (by omega)]
      rw [hd32 (i' + 1) (by omega), if_pos hfire]
  have hstate1 : vstateAfter th D conf t (i + 1) = ⟨0, 0⟩ := by
    show (validate_detection th D (vstateAfter th D conf t i) (conf i) (t i)).1 = _
    rw [hfirei]
  refine ⟨?_, ?_, hstate1, ?_⟩
  · intro j hj
    unfold vresult
    rw [hcall j hj]
  · unfold vresult
    rw [hfirei]
  · intro hD
    unfold vresult
    rw [hstate1, validate_start_zero D (t (i + 1)) 0 (hconf (i + 1) (by omega))]
    rw [dur32_self (t (i + 1)) (hbound (i + 1) (by omega))]
    rw [if_neg (by omega)]

/-- Witness for C1 (amended): threshold 1/2, trigger 10 ms, times 1 and 11,
firing on the second inference. -/
theorem c1_confirm_and_reset_witness :
    (∀ j ≤ 1 + 1, (1 : ℚ) ≤ (fun _ => (1 : ℚ)) j) ∧
    (∀ b ≤ 1 + 1, ∀ a ≤ b,
      (fun j => min (1 + 10 * j) 11) a ≤ (fun j => min (1 + 10 * j) 11) b) ∧
    (∀ j ≤ 1 + 1, (fun j => min (1 + 10 * j) 11) j < 2 ^ 32) ∧
    0 < (fun j => min (1 + 10 * j) 11) 0 ∧
    10 ≤ (fun j => min (1 + 10 * j) 11) 1 - (fun j => min (1 + 10 * j) 11) 0 ∧
    (∀ j < 1, (fun j => min (1 + 10 * j) 11) j - (fun j => min (1 + 10 * j) 11) 0 < 10) ∧
    ((∀ j < 1, vresult 1 10 (fun _ => 1) (fun j => min (1 + 10 * j) 11) j = false) ∧
     vresult 1 10 (fun _ => 1) (fun j => min (1 + 10 * j) 11) 1 = true ∧
     vstateAfter 1 10 (fun _ => 1) (fun j => min (1 + 10 * j) 11) (1 + 1) = ⟨0, 0⟩ ∧
     (0 < 10 → vresult 1 10 (fun _ => 1) (fun j => min (1 + 10 * j) 11) (1 + 1) = false)) :=
  ⟨by decide, by decide, by decide, by decide, by decide, by decide,
    c1_confirm_and_reset 1 10 (fun _ => 1) (fun j => min (1 + 10 * j) 11) 1
      (by decide) (by decide) (by decide) (by decide) (by decide) (by decide)⟩

/-- C1 counterexample: with the first crossing at clock time 0 (times
0, 5, 10 ms; threshold 1/2, trigger 10 ms, confidence constantly 1), the
elapsed time since the first crossing reaches the trigger duration at the
third inference, yet `validate_detection` returns false there (and on every
call shown): the code re-bases its timing because time 0 collides with the
idle sentinel of `detection_start_time_`. -/
theorem c1_counterexample_time_zero :
    ((1 : ℚ) ≤ 1) ∧
    (∀ b ≤ 2, ∀ a ≤ b, (fun j => 5 * j) a ≤ (fun j => 5 * j) b) ∧
    (fun j => 5 * j) 2 - (fun j => 5 * j) 0 = 10 ∧
    (∀ j < 2, (fun j => 5 * j) j - (fun j => 5 * j) 0 < 10) ∧
    vresult 1 10 (fun _ => 1) (fun j => 5 * j) 0 = false ∧
    vresult 1 10 (fun _ => 1) (fun j => 5 * j) 1 = false ∧
    vresult 1 10 (fun _ => 1) (fun j => 5 * j) 2 = false := by
  decide

/-- C4: a candidate that stays above threshold for less than the trigger
duration and then drops below threshold produces no detection on any call,
and the drop resets the validation state to idle. -/
theorem c4_reset_on_drop (th : ℚ) (D : ℕ) (conf : ℕ → ℚ) (t : ℕ → ℕ) (n : ℕ)
    (hconf : ∀ j < n, th ≤ conf j)
    (hlow : conf n < th)
    (hmono : ∀ b ≤ n, ∀ a ≤ b, t a ≤ t b)
    (hbound : ∀ j ≤ n, t j < 2 ^ 32)
    (hshort : ∀ j < n, t j - t 0 < D) :
    (∀ j ≤ n, vresult th D conf t j = false) ∧
    vstateAfter th D conf t (n + 1) = ⟨0, 0⟩ := by
  -- the call at every above-threshold index keeps a candidate whose start
  -- time is either the sentinel 0 or a nonzero timestamp from the stream
  have hcall : ∀ j < n,
      (validate_detection th D (vstateAfter th D conf t j) (conf j) (t j)).2 = false ∧
      ((vstateAfter th D conf t (j + 1)).detectionStartTime = 0 ∨
        ∃ k, k ≤ j ∧ (vstateAfter th D conf t (j + 1)).detectionStartTime = t k ∧ t k ≠ 0) := by
    intro j hj
    induction j with
    | zero =>
      have hD0 : 0 < D := by have := hshort 0 hj; omega
      have hcallval : validate_detection th D (vstateAfter th D conf t 0)
          (conf 0) (t 0) = (⟨t 0, 1⟩, false) := by
        show validate_detection th D ⟨0, 0⟩ (conf 0) (t 0) = _
        rw [validate_start_zero D (t 0) 0 (hconf 0 hj), dur32_self (t 0) (hbound 0 (by omega))]
        rw [if_neg (by omega)]
      refine ⟨by rw [hcallval], ?_⟩
      have hs : vstateAfter th D conf t 1 = ⟨t 0, 1⟩ := by
        show (validate_detection th D (vstateAfter th D conf t 0) (conf 0) (t 0)).1 = _
        rw [hcallval]
      rcases Nat.eq_zero_or_pos (t 0) with h0 | h0
      · exact Or.inl (by rw [hs]; exact h0)
      · exact Or.inr ⟨0, Nat.le_refl _, by rw [hs], by omega⟩
    | succ j ih =>
      have hD0 : 0 < D := by have := hshort (j + 1) hj; omega
      obtain ⟨-, hstart⟩ := ih (by omega)
      rcases hstart with h0 | ⟨k, hk, hsk, hknz⟩
      · -- sentinel: the call re-bases on the current time
        have hcallval : validate_detection th D (vstateAfter th D conf t (j + 1))
            (conf (j + 1)) (t (j + 1)) = (⟨t (j + 1), 1⟩, false) := by
          have hs0 : vstateAfter th D conf t (j + 1)
              = ⟨0, (vstateAfter th D conf t (j + 1)).consecutiveDetections⟩ := by
            cases hsa : vstateAfter th D conf t (j + 1) with
            | mk a b => simp only [hsa] at h0; simp [h0]
          rw [hs0, validate_start_zero D (t (j + 1)) _ (hconf (j + 1) hj)]
          rw [dur32_self (t (j + 1)) (hbound (j + 1) (by omega))]
          rw [if_neg (by omega)]
        refine ⟨by rw [hcallval], ?_⟩
        have hs : vstateAfter th D conf t (j + 2) = ⟨t (j + 1), 1⟩ := by
          show (validate_detection th D (vstateAfter th D conf t (j + 1))
            (conf (j + 1)) (t (j + 1))).1 = _
          rw [hcallval]
        rcases Nat.eq_zero_or_pos (t (j + 1)) with hz | hz
        · exact Or.inl (by rw [hs]; exact hz)
        · exact Or.inr ⟨j + 1, Nat.le_refl _, by rw [hs], by omega⟩
      · -- genuine candidate: elapsed time stays below the trigger duration
        have hdur : dur32 (t k) (t (j + 1)) < D := by
          have hk1 : t k ≤ t (j + 1) := hmono (j + 1) (by omega) k (by omega)
          have h0k : t 0 ≤ t k := hmono k (by omega) 0 (Nat.zero_le _)
          rw [dur32_eq hk1 (by have := hbound (j + 1) (by omega); omega)]
          have := hshort (j + 1) hj
          omega
        have hcallval : validate_detection th D (vstateAfter th D conf t (j + 1))
            (conf (j + 1)) (t (j + 1)) =
            (⟨t k, (vstateAfter th D conf t (j + 1)).consecutiveDetections + 1⟩, false) := by
          have hs0 : vstateAfter th D conf t (j + 1)
              = ⟨t k, (vstateAfter th D conf t (j + 1)).consecutiveDetections⟩ := by
            cases hsa : vstateAfter th D conf t (j + 1) with
            | mk a b => simp only [hsa] at hsk; simp [hsk]
          rw [hs0, validate_candidate D (t (j + 1)) (t k) _
            (hconf (j + 1) hj) hknz]
          rw [if_neg (by omega)]
        refine ⟨by rw [hcallval], ?_⟩
        refine Or.inr ⟨k, by omega, ?_, hknz⟩
        show (validate_detection th D (vstateAfter th D conf t (j + 1))
          (conf (j + 1)) (t (j + 1))).1.detectionStartTime = t k
        rw [hcallval]
  have hlast : validate_detection th D (vstateAfter th D conf t n)
      (conf n) (t n) = (⟨0, 0⟩, false) :=
    validate_low D (t n) _ (by exact not_le.mpr hlow)
  refine ⟨?_, ?_⟩
  · intro j hj
    rcases Nat.lt_or_ge j n with hlt | hge
    · exact (hcall j hlt).1
    · have hjn : j = n := by omega
      subst hjn
      unfold vresult
      rw [hlast]
  · show (validate_detection th D (vstateAfter th D conf t n) (conf n) (t n)).1 = _
    rw [hlast]

/-- Witness for C4: two above-threshold inferences within the trigger
window, then a drop below threshold. -/
theorem c4_reset_on_drop_witness :
    (∀ j < 2, (1 : ℚ) ≤ (fun j => if j < 2 then (1 : ℚ) else 0) j) ∧
    ((fun j => if j < 2 then (1 : ℚ) else 0) 2 < 1) ∧
    (∀ b ≤ 2, ∀ a ≤ b, (fun _ => 5) a ≤ (fun _ => 5) b) ∧
    (∀ j ≤ 2, (fun _ => 5) j < 2 ^ 32) ∧
    (∀ j < 2, (fun _ => 5) j - (fun _ => 5) 0 < 10) ∧
    ((∀ j ≤ 2, vresult 1 10 (fun j => if j < 2 then 1 else 0) (fun _ => 5) j = false) ∧
     vstateAfter 1 10 (fun j => if j < 2 then 1 else 0) (fun _ => 5) (2 + 1) = ⟨0, 0⟩) :=
  ⟨by decide, by decide, by decide, by decide, by decide,
    c4_reset_on_drop 1 10 (fun j => if j < 2 then 1 else 0) (fun _ => 5) 2
      (by decide) (by decide) (by decide) (by decide) (by decide)⟩

/-! ## MFCCFrontend (`audio/mfcc_frontend.cpp`)

Fixed parameters from `include/audio/mfcc_frontend.hpp` (lines 25–38).
`float` arithmetic is idealized over `ℝ` (the transcendental table and
pipeline computations have no exact rational form); the control state —
ring positions and counters — is exact. -/

def SAMPLE_RATE : ℕ := 16000
def WINDOW_SAMPLES : ℕ := (SAMPLE_RATE * 30) / 1000
def HOP_SAMPLES : ℕ := (SAMPLE_RATE * 10) / 1000
def N_MELS : ℕ := 40
def N_MFCC : ℕ := 40
def N_FRAMES : ℕ := 49
def FEATURE_SIZE : ℕ := N_FRAMES * N_MFCC
def INPUT_BUFFER_SIZE : ℕ := (N_FRAMES - 1) * HOP_SAMPLES + WINDOW_SAMPLES

/-- The Hann window table of `MFCCFrontend::setup_tables` (lines 179–181):
`hann_window_[i] = 0.5f * (1.0f - cosf(2.0f * M_PI * i / (WINDOW_SAMPLES - 1)))`. -/
noncomputable def hann_window : List ℝ :=
  (List.range WINDOW_SAMPLES).map
    (fun (i : ℕ) => 0.5 * (1 - Real.cos (2 * Real.pi * (i : ℝ) / ((WINDOW_SAMPLES : ℝ) - 1))))

/-- Entry `i` of the Hann window table. -/
noncomputable def hannAt (i : ℕ) : ℝ := hann_window.getD i 0

/-- `mel_high` (line 185): `2595 * log10(1 + (SAMPLE_RATE/2) / 700)`. -/
noncomputable def mel_high : ℝ := 2595 * Real.logb 10 (1 + ((SAMPLE_RATE : ℝ) / 2) / 700)

/-- Mel-scale boundary points (lines 189–192), `mel_low = 0`. -/
noncomputable def mel_point (i : ℕ) : ℝ := 0 + (mel_high - 0) * i / ((N_MELS : ℝ) + 1)

/-- Boundary points converted back to Hz (lines 195–198). -/
noncomputable def hz_point (i : ℕ) : ℝ := 700 * ((10 : ℝ) ^ (mel_point i / 2595) - 1)

/-- Boundary points as FFT bin indices (lines 201–204):
`floorf((WINDOW_SAMPLES + 1) * hz / SAMPLE_RATE)`. -/
noncomputable def bin_point (i : ℕ) : ℕ :=
  ⌊((WINDOW_SAMPLES : ℝ) + 1) * hz_point i / (SAMPLE_RATE : ℝ)⌋₊

/-- Triangular mel filter weight for filter `m` at bin `k` (lines 209–225);
bins outside the triangle keep the zero from the initial `memset`. -/
noncomputable def mel_filterbank (m k : ℕ) : ℝ :=
  if bin_point m ≤ k ∧ k < bin_point (m + 1) ∧ bin_point m < bin_point (m + 1) then
    ((k : ℝ) - bin_point m) / ((bin_point (m + 1) : ℝ) - bin_point m)
  else if bin_point (m + 1) ≤ k ∧ k < bin_point (m + 2) ∧ bin_point (m + 1) < bin_point (m + 2) then
    ((bin_point (m + 2) : ℝ) - k) / ((bin_point (m + 2) : ℝ) - bin_point (m + 1))
  else 0

/-- Orthonormal DCT-II matrix (lines 228–237). -/
noncomputable def dct_matrix (i j : ℕ) : ℝ :=
  Real.cos (Real.pi * i * ((j : ℝ) + 0.5) / (N_MELS : ℝ)) *
    (if i = 0 then Real.sqrt (1 / (N_MELS : ℝ)) else Real.sqrt (2 / (N_MELS : ℝ)))

/-- `MFCCFrontend::compute_power_spectrum` (lines 249–267): Hann windowing
followed by a direct DFT over the non-redundant bins. -/
noncomputable def compute_power_spectrum (w : ℕ → ℝ) (k : ℕ) : ℝ :=
  (∑ n ∈ Finset.range WINDOW_SAMPLES,
      w n * hannAt n * Real.cos (-(2 * Real.pi * k * n) / (WINDOW_SAMPLES : ℝ))) *
    (∑ n ∈ Finset.range WINDOW_SAMPLES,
      w n * hannAt n * Real.cos (-(2 * Real.pi * k * n) / (WINDOW_SAMPLES : ℝ))) +
  (∑ n ∈ Finset.range WINDOW_SAMPLES,
      w n * hannAt n * Real.sin (-(2 * Real.pi * k * n) / (WINDOW_SAMPLES : ℝ))) *
    (∑ n ∈ Finset.range WINDOW_SAMPLES,
      w n * hannAt n * Real.sin (-(2 * Real.pi * k * n) / (WINDOW_SAMPLES : ℝ)))

/-- `MFCCFrontend::apply_mel_filterbank` (lines 269–281), including the
`1e-10` floor before `log10f`. -/
noncomputable def apply_mel_filterbank (p : ℕ → ℝ) (m : ℕ) : ℝ :=
  Real.logb 10
    (max (∑ k ∈ Finset.range (WINDOW_SAMPLES / 2 + 1), p k * mel_filterbank m k) 1e-10)

/-- `MFCCFrontend::compute_mfcc` (lines 283–290). -/
noncomputable def compute_mfcc (melE : ℕ → ℝ) (i : ℕ) : ℝ :=
  ∑ j ∈ Finset.range N_MELS, melE j * dct_matrix i j

/-- MFCC coefficients of the frame starting at `frame_start` in the circular
input buffer (`process_samples`, lines 115–134): samples are read modulo
`INPUT_BUFFER_SIZE` and normalized by `32768`. -/
noncomputable def frame_coeffs (buf : ℕ → ℤ) (frame_start : ℕ) : ℕ → ℝ :=
  fun i =>
    compute_mfcc
      (apply_mel_filterbank
        (compute_power_spectrum
          (fun n => (buf ((frame_start + n) % INPUT_BUFFER_SIZE) : ℝ) / 32768)))
      i

/-- State of the MFCC frontend: circular sample buffer (`audio_buffer_`,
`buffer_write_pos_`), the saturating `samples_available_` counter, the
feature matrix (`features_`, flattened `49×40`), and `feature_frame_count_`. -/
structure MfccState where
  buffer : ℕ → ℤ
  writePos : ℕ
  samplesAvail : ℕ
  featureCount : ℕ
  features : ℕ → ℝ

/-- `MFCCFrontend::update_feature_matrix` (lines 292–298) on the
feature-matrix/counter pair. -/
def update_feature_matrix (fm : (ℕ → ℝ) × ℕ) (coeffs : ℕ → ℝ) : (ℕ → ℝ) × ℕ :=
  if fm.2 < N_FRAMES then
    (fun p => if fm.2 * N_MFCC ≤ p ∧ p < fm.2 * N_MFCC + N_MFCC
        then coeffs (p - fm.2 * N_MFCC) else fm.1 p,
      fm.2 + 1)
  else fm

/-- The 49-frame full recompute of `process_samples` (lines 113–135):
`feature_frame_count_` is reset to 0 and each frame, spaced by the hop, is
analyzed and written into the feature matrix. -/
noncomputable def mfccRecompute (s : MfccState) (start_pos : ℕ) : MfccState :=
  { s with
    features := ((List.range N_FRAMES).foldl
      (fun fm frame => update_feature_matrix fm
        (frame_coeffs s.buffer (start_pos + frame * HOP_SAMPLES)))
      (s.features, 0)).1
    featureCount := ((List.range N_FRAMES).foldl
      (fun fm frame => update_feature_matrix fm
        (frame_coeffs s.buffer (start_pos + frame * HOP_SAMPLES)))
      (s.features, 0)).2 }

/-- One iteration of the sample-ingestion loop of `process_samples`
(lines 97–104). -/
def mfccIngestStep (st : MfccState) (x : ℤ) : MfccState :=
  { st with
    buffer := fun p => if p = st.writePos then x else st.buffer p
    writePos := (st.writePos + 1) % INPUT_BUFFER_SIZE
    samplesAvail := if st.samplesAvail < INPUT_BUFFER_SIZE
      then st.samplesAvail + 1 else st.samplesAvail }

/-- The sample-ingestion loop of `process_samples` (lines 97–104). -/
def mfccIngest (s : MfccState) (input : List ℤ) : MfccState :=
  input.foldl mfccIngestStep s

/-- `MFCCFrontend::process_samples` (lines 91–141).  The frontend is assumed
initialized with a non-null input; the `samples == 0` early return is kept.
The starting offset of frame zero is the source's wraparound conditional
(lines 109–111). -/
noncomputable def process_samples (s : MfccState) (input : List ℤ) : MfccState × Bool :=
  if input.length = 0 then (s, false)
  else if INPUT_BUFFER_SIZE ≤ (mfccIngest s input).samplesAvail then
    (mfccRecompute (mfccIngest s input)
      (if INPUT_BUFFER_SIZE ≤ (mfccIngest s input).writePos
        then (mfccIngest s input).writePos - INPUT_BUFFER_SIZE
        else INPUT_BUFFER_SIZE + (mfccIngest s input).writePos - INPUT_BUFFER_SIZE),
      true)
  else (mfccIngest s input, false)

/-- `process_samples` with the starting offset taken directly as
`buffer_write_pos_` — the simplified form that, per the spec, both arms of
the wraparound conditional reduce to (modulo the buffer length). -/
noncomputable def process_samples_spec_start (s : MfccState) (input : List ℤ) :
    MfccState × Bool :=
  if input.length = 0 then (s, false)
  else if INPUT_BUFFER_SIZE ≤ (mfccIngest s input).samplesAvail then
    (mfccRecompute (mfccIngest s input) (mfccIngest s input).writePos, true)
  else (mfccIngest s input, false)

/-- `MFCCFrontend::get_features` (lines 143–150): the matrix is copied out
only when exactly `N_FRAMES` frames have been written since the last
recompute. -/
noncomputable def get_features (s : MfccState) : Option (ℕ → ℝ) :=
  if s.featureCount = N_FRAMES then some s.features else none

/-- `MFCCFrontend::reset` (lines 152–164). -/
noncomputable def mfccReset : MfccState :=
  ⟨fun _ => 0, 0, 0, 0, fun _ => 0⟩

/-- `MFCCFrontend::has_sufficient_data` (lines 166–168). -/
def has_sufficient_data (s : MfccState) : Bool :=
  decide (INPUT_BUFFER_SIZE ≤ s.samplesAvail)

/-- A run of `process_samples` calls. -/
noncomputable def mfccRun (s : MfccState) (inputs : List (List ℤ)) : MfccState :=
  inputs.foldl (fun st inp => (process_samples st inp).1) s

/-! ### C9: the wraparound conditional is equivalent to `buffer_write_pos_` -/

theorem frame_coeffs_congr (buf : ℕ → ℤ) {a b : ℕ}
    (h : a % INPUT_BUFFER_SIZE = b % INPUT_BUFFER_SIZE) :
    frame_coeffs buf a = frame_coeffs buf b := by
  unfold frame_coeffs
  have hw : (fun n => ((buf ((a + n) % INPUT_BUFFER_SIZE)) : ℝ) / 32768)
      = (fun n => ((buf ((b + n) % INPUT_BUFFER_SIZE)) : ℝ) / 32768) := by
    funext n
    rw [Nat.add_mod, h, ← Nat.add_mod]
  rw [hw]

theorem mfccRecompute_congr (s : MfccState) {a b : ℕ}
    (h : a % INPUT_BUFFER_SIZE = b % INPUT_BUFFER_SIZE) :
    mfccRecompute s a = mfccRecompute s b := by
  unfold mfccRecompute
  have hstep : (fun (fm : (ℕ → ℝ) × ℕ) frame => update_feature_matrix fm
        (frame_coeffs s.buffer (a + frame * HOP_SAMPLES)))
      = (fun (fm : (ℕ → ℝ) × ℕ) frame => update_feature_matrix fm
        (frame_coeffs s.buffer (b + frame * HOP_SAMPLES))) := by
    funext fm frame
    have hx : (a + frame * HOP_SAMPLES) % INPUT_BUFFER_SIZE
        = (b + frame * HOP_SAMPLES) % INPUT_BUFFER_SIZE := by
      rw [Nat.add_mod, h, ← Nat.add_mod]
    rw [frame_coeffs_congr s.buffer hx]
  rw [hstep]

theorem wrap_start_mod (wp : ℕ) :
    (if INPUT_BUFFER_SIZE ≤ wp then wp - INPUT_BUFFER_SIZE
      else INPUT_BUFFER_SIZE + wp - INPUT_BUFFER_SIZE) % INPUT_BUFFER_SIZE
      = wp % INPUT_BUFFER_SIZE := by
  by_cases h : INPUT_BUFFER_SIZE ≤ wp
  · rw [if_pos h]
    conv_rhs => rw [← Nat.sub_add_cancel h]
    rw [Nat.add_mod_right]
  · rw [if_neg h, Nat.add_sub_cancel_left]

/-- C9: the wraparound start-offset conditional of `process_samples`
(lines 109–111) is redundant: an embedding with the branch and one with
`start_pos := buffer_write_pos_` produce identical states and feature
matrices for every input and every state, because each arm is congruent to
`buffer_write_pos_` modulo `INPUT_BUFFER_SIZE` and every frame position is
taken modulo `INPUT_BUFFER_SIZE`. -/
theorem c9_wraparound_branch_equivalence :
    (∀ (s : MfccState) (input : List ℤ),
      process_samples s input = process_samples_spec_start s input) ∧
    (∀ wp : ℕ,
      (if INPUT_BUFFER_SIZE ≤ wp then wp - INPUT_BUFFER_SIZE
        else INPUT_BUFFER_SIZE + wp - INPUT_BUFFER_SIZE) % INPUT_BUFFER_SIZE
        = wp % INPUT_BUFFER_SIZE) := by
  refine ⟨?_, wrap_start_mod⟩
  intro s input
  unfold process_samples process_samples_spec_start
  by_cases h0 : input.length = 0
  · rw [if_pos h0, if_pos h0]
  · rw [if_neg h0, if_neg h0]
    by_cases h1 : INPUT_BUFFER_SIZE ≤ (mfccIngest s input).samplesAvail
    · rw [if_pos h1, if_pos h1,
        mfccRecompute_congr (mfccIngest s input) (wrap_start_mod (mfccIngest s input).writePos)]
    · rw [if_neg h1, if_neg h1]

/-! ### C8: the Hann window table -/

theorem hannAt_eq (i : ℕ) (h : i < WINDOW_SAMPLES) :
    hannAt i = 0.5 * (1 - Real.cos (2 * Real.pi * i / ((WINDOW_SAMPLES : ℝ) - 1))) := by
  unfold hannAt hann_window
  rw [List.getD_eq_getElem _ _ (by simpa using h)]
  simp

/-- C8 (amended): for every `i < 480` the precomputed window entry equals
the *symmetric* Hann value `0.5 * (1 - cos(2πi/(WINDOW_SAMPLES - 1)))`
(denominator 479), computed once from the fixed parameters — not the
periodic form with denominator `WINDOW_SAMPLES` asserted by the claim. -/
theorem c8_hann_window_symmetric (i : ℕ) (h : i < WINDOW_SAMPLES) :
    hannAt i = 0.5 * (1 - Real.cos (2 * Real.pi * i / 479)) := by
  rw [hannAt_eq i h]
  norm_num [WINDOW_SAMPLES, SAMPLE_RATE]

/-- Witness for the amended C8 at index 0. -/
theorem c8_hann_window_symmetric_witness :
    0 < WINDOW_SAMPLES ∧
    hannAt 0 = 0.5 * (1 - Real.cos (2 * Real.pi * ((0 : ℕ) : ℝ) / 479)) :=
  ⟨by decide, c8_hann_window_symmetric 0 (by decide)⟩

/-- C8 counterexample: at index 120 the table entry is strictly above 0.5,
whereas the periodic-Hann formula `0.5 * (1 - cos(2π·120/480))` of the claim
gives exactly 0.5: the code divides by `WINDOW_SAMPLES - 1`, not
`WINDOW_SAMPLES`. -/
theorem c8_counterexample_periodic_hann :
    hannAt 120 ≠ 0.5 * (1 - Real.cos (2 * Real.pi * 120 / (WINDOW_SAMPLES : ℝ))) := by
  have h480 : (WINDOW_SAMPLES : ℝ) = 480 := by norm_num [WINDOW_SAMPLES, SAMPLE_RATE]
  rw [hannAt_eq 120 (by decide), h480]
  simp only [Nat.cast_ofNat]
  have hangle : 2 * Real.pi * (120 : ℝ) / 480 = Real.pi / 2 := by ring
  have hangle2 : 2 * Real.pi * (120 : ℝ) / ((480 : ℝ) - 1) = Real.pi * (240 / 479) := by
    rw [show ((480 : ℝ) - 1) = 479 by norm_num]
    ring
  rw [hangle, hangle2, Real.cos_pi_div_two]
  have hpi := Real.pi_pos
  have hcosneg : Real.cos (Real.pi * (240 / 479)) < Real.cos (Real.pi / 2) := by
    apply Real.strictAntiOn_cos
    · simp only [Set.mem_Icc]
      constructor
      · positivity
      · linarith
    · simp only [Set.mem_Icc]
      constructor
      · positivity
      · nlinarith
    · nlinarith
  rw [Real.cos_pi_div_two] at hcosneg
  intro heq
  nlinarith

/-! ### C6: readiness of `process_samples` and `get_features` -/

theorem mfccIngest_samplesAvail (input : List ℤ) : ∀ (s : MfccState),
    s.samplesAvail ≤ INPUT_BUFFER_SIZE →
    (mfccIngest s input).samplesAvail
      = min INPUT_BUFFER_SIZE (s.samplesAvail + input.length) := by
  induction input with
  | nil => intro s h; simp [mfccIngest]; omega
  | cons x rest ih =>
    intro s h
    show (mfccIngest (mfccIngestStep s x) rest).samplesAvail = _
    have hstep : (mfccIngestStep s x).samplesAvail
        = if s.samplesAvail < INPUT_BUFFER_SIZE
          then s.samplesAvail + 1 else s.samplesAvail := rfl
    rw [ih (mfccIngestStep s x) (by rw [hstep]; split <;> omega), hstep]
    simp only [List.length_cons]
    split <;> omega

theorem mfccIngest_featureCount (input : List ℤ) : ∀ (s : MfccState),
    (mfccIngest s input).featureCount = s.featureCount := by
  induction input with
  | nil => intro s; rfl
  | cons x rest ih =>
    intro s
    show (mfccIngest (mfccIngestStep s x) rest).featureCount = _
    rw [ih (mfccIngestStep s x)]
    rfl

theorem foldl_update_count (g : ℕ → ℕ → ℝ) : ∀ (l : List ℕ) (fm : (ℕ → ℝ) × ℕ),
    fm.2 ≤ N_FRAMES →
    ((l.foldl (fun fm frame => update_feature_matrix fm (g frame)) fm).2)
      = min N_FRAMES (fm.2 + l.length) := by
  intro l
  induction l with
  | nil => intro fm h; simp; omega
  | cons a rest ih =>
    intro fm h
    show ((rest.foldl (fun fm frame => update_feature_matrix fm (g frame))
      (update_feature_matrix fm (g a))).2) = _
    by_cases hlt : fm.2 < N_FRAMES
    · have hupd : (update_feature_matrix fm (g a)).2 = fm.2 + 1 := by
        unfold update_feature_matrix
        rw [if_pos hlt]
      rw [ih _ (by rw [hupd]; omega), hupd]
      simp only [List.length_cons]
      omega
    · have hupd : update_feature_matrix fm (g a) = fm := by
        unfold update_feature_matrix
        rw [if_neg hlt]
      rw [hupd, ih fm h]
      simp only [List.length_cons]
      omega

theorem mfccRecompute_featureCount (s : MfccState) (sp : ℕ) :
    (mfccRecompute s sp).featureCount = N_FRAMES := by
  have h := foldl_update_count
    (fun frame => frame_coeffs s.buffer (sp + frame * HOP_SAMPLES))
    (List.range N_FRAMES) (s.features, 0) (Nat.zero_le _)
  simp only [List.length_range] at h
  unfold mfccRecompute
  dsimp only
  rw [h]
  omega

theorem mfccRecompute_samplesAvail (s : MfccState) (sp : ℕ) :
    (mfccRecompute s sp).samplesAvail = s.samplesAvail := by
  unfold mfccRecompute
  dsimp only

/-- One `process_samples` call: the saturating sample counter, the returned
readiness flag, and the feature-frame counter. -/
theorem process_samples_char (s : MfccState) (input : List ℤ)
    (h : s.samplesAvail ≤ INPUT_BUFFER_SIZE) :
    (process_samples s input).1.samplesAvail
        = min INPUT_BUFFER_SIZE (s.samplesAvail + input.length) ∧
    ((process_samples s input).2 = true ↔
      (INPUT_BUFFER_SIZE ≤ s.samplesAvail + input.length ∧ input ≠ [])) ∧
    (process_samples s input).1.featureCount
        = if INPUT_BUFFER_SIZE ≤ s.samplesAvail + input.length ∧ input ≠ []
          then N_FRAMES else s.featureCount := by
  unfold process_samples
  by_cases h0 : input.length = 0
  · have hnil : input = [] := List.length_eq_zero.mp h0
    subst hnil
    simp only [List.length_nil]
    rw [if_pos trivial]
    refine ⟨by simp; omega, by simp, by simp⟩
  · rw [if_neg h0]
    have hne : input ≠ [] := by
      intro hcontra
      subst hcontra
      exact h0 rfl
    have havail := mfccIngest_samplesAvail input s h
    by_cases h1 : INPUT_BUFFER_SIZE ≤ (mfccIngest s input).samplesAvail
    · rw [if_pos h1]
      have hcond : INPUT_BUFFER_SIZE ≤ s.samplesAvail + input.length := by
        rw [havail] at h1
        omega
      refine ⟨?_, ?_, ?_⟩
      · show (mfccRecompute _ _).samplesAvail = _
        rw [mfccRecompute_samplesAvail, havail]
      · simp [hcond, hne]
      · show (mfccRecompute _ _).featureCount = _
        rw [mfccRecompute_featureCount, if_pos ⟨hcond, hne⟩]
    · rw [if_neg h1]
      have hcond : ¬ INPUT_BUFFER_SIZE ≤ s.samplesAvail + input.length := by
        rw [havail] at h1
        omega
      refine ⟨havail, by simp [hcond], ?_⟩
      show (mfccIngest s input).featureCount = _
      rw [mfccIngest_featureCount, if_neg (by intro hcontra; exact hcond hcontra.1)]

/-- A run from the reset state: the sample counter saturates at the buffer
size and the frame counter is 49 exactly once the cumulative sample count
has reached the buffer size. -/
theorem mfccRun_char (inputs : List (List ℤ)) :
    (mfccRun mfccReset inputs).samplesAvail
        = min INPUT_BUFFER_SIZE ((inputs.map List.length).sum) ∧
    (mfccRun mfccReset inputs).featureCount
        = if INPUT_BUFFER_SIZE ≤ (inputs.map List.length).sum then N_FRAMES else 0 := by
  induction inputs using List.reverseRecOn with
  | nil =>
    refine ⟨by simp [mfccRun, mfccReset], ?_⟩
    rw [if_neg (by simp; decide)]
    rfl
  | append_singleton rest l ihp =>
    obtain ⟨iha, ihf⟩ := ihp
    have hrun : mfccRun mfccReset (rest ++ [l])
        = (process_samples (mfccRun mfccReset rest) l).1 := by
      unfold mfccRun
      rw [List.foldl_append]
      rfl
    have hle : (mfccRun mfccReset rest).samplesAvail ≤ INPUT_BUFFER_SIZE := by
      rw [iha]
      omega
    obtain ⟨hc1, _, hc3⟩ := process_samples_char (mfccRun mfccReset rest) l hle
    have hsum : ((rest ++ [l]).map List.length).sum
        = ((rest.map List.length).sum) + l.length := by
      simp
    rw [hrun]
    refine ⟨?_, ?_⟩
    · rw [hc1, iha, hsum]
      omega
    · rw [hc3, iha, ihf, hsum]
      by_cases hl0 : l = []
      · subst hl0
        simp
      · by_cases hS : INPUT_BUFFER_SIZE ≤ (rest.map List.length).sum + l.length
        · rw [if_pos ⟨by omega, hl0⟩, if_pos hS]
        · rw [if_neg (by rintro ⟨hx, -⟩; omega), if_neg hS, if_neg (by omega)]

/-- C6: `process_samples` returns true exactly on the calls after which the
cumulative sample count since the last reset has reached
`INPUT_BUFFER_SIZE = 8160` (and the full 49-frame recompute was just
performed), false earlier; `get_features` succeeds iff exactly 49 frames
have been written since the last recompute. -/
theorem c6_features_ready (inputs : List (List ℤ)) (i : ℕ)
    (hne : ∀ l ∈ inputs, l ≠ [])
    (hi : i < inputs.length) :
    ((process_samples (mfccRun mfccReset (inputs.take i)) (inputs.getD i [])).2 = true ↔
      INPUT_BUFFER_SIZE ≤ ((inputs.take (i + 1)).map List.length).sum) ∧
    ((process_samples (mfccRun mfccReset (inputs.take i)) (inputs.getD i [])).2 = true →
      (process_samples (mfccRun mfccReset (inputs.take i)) (inputs.getD i [])).1.featureCount
        = N_FRAMES) ∧
    ((get_features (mfccRun mfccReset inputs)).isSome = true ↔
      INPUT_BUFFER_SIZE ≤ (inputs.map List.length).sum) := by
  obtain ⟨ha, -⟩ := mfccRun_char (inputs.take i)
  have hle : (mfccRun mfccReset (inputs.take i)).samplesAvail ≤ INPUT_BUFFER_SIZE := by
    rw [ha]
    omega
  obtain ⟨-, hc2, hc3⟩ := process_samples_char _ (inputs.getD i []) hle
  have hmem : inputs.getD i [] ∈ inputs := by
    rw [List.getD_eq_getElem _ _ hi]
    exact List.getElem_mem hi
  have hlen0 : inputs.getD i [] ≠ [] := hne _ hmem
  have hsum : ((inputs.take (i + 1)).map List.length).sum
      = ((inputs.take i).map List.length).sum + (inputs.getD i []).length := by
    rw [List.map_take, List.map_take,
      List.sum_take_succ (inputs.map List.length) i (by simpa using hi)]
    congr 1
    rw [List.getD_eq_getElem _ _ hi]
    simp
  refine ⟨?_, ?_, ?_⟩
  · rw [hc2, hsum, ha]
    constructor
    · rintro ⟨hx, -⟩
      omega
    · intro hx
      exact ⟨by omega, hlen0⟩
  · intro ht
    rw [hc2] at ht
    rw [hc3, if_pos ht]
  · obtain ⟨-, hfall⟩ := mfccRun_char inputs
    unfold get_features
    rw [hfall]
    by_cases hS : INPUT_BUFFER_SIZE ≤ (inputs.map List.length).sum
    · rw [if_pos hS, if_pos rfl]
      simp [hS]
    · rw [if_neg hS, if_neg (by decide)]
      simp [hS]

/-- Witness for C6: a single 5-sample call leaves the cumulative count far
below 8160, so no readiness is reported and no features are available. -/
theorem c6_features_ready_witness :
    (∀ l ∈ [[(5 : ℤ)]], l ≠ []) ∧ 0 < ([[(5 : ℤ)]] : List (List ℤ)).length ∧
    (((process_samples (mfccRun mfccReset ([[(5 : ℤ)]].take 0)) ([[(5 : ℤ)]].getD 0 [])).2 = true ↔
      INPUT_BUFFER_SIZE ≤ (([[(5 : ℤ)]].take (0 + 1)).map List.length).sum) ∧
    ((process_samples (mfccRun mfccReset ([[(5 : ℤ)]].take 0)) ([[(5 : ℤ)]].getD 0 [])).2 = true →
      (process_samples (mfccRun mfccReset ([[(5 : ℤ)]].take 0))
        ([[(5 : ℤ)]].getD 0 [])).1.featureCount = N_FRAMES) ∧
    ((get_features (mfccRun mfccReset [[(5 : ℤ)]])).isSome = true ↔
      INPUT_BUFFER_SIZE ≤ ([[(5 : ℤ)]].map List.length).sum)) :=
  ⟨by decide, by decide, c6_features_ready [[(5 : ℤ)]] 0 (by decide) (by decide)⟩

/-! ## `WakeWordDetector::process_frame` (lines 147–174)

The detector state that `process_frame` touches: the enable/init flags, the
owned MFCC frontend, the bounded `audio_queue_` (capacity 16 created at line
127, carrying a `size_t` token 1), and the legacy audio `RingBuffer`. -/

structure DetectorState where
  enabled : Bool
  initialized : Bool
  mfcc : MfccState
  audioQueue : List ℕ
  audioBuffer : RingBuffer

/-- The two little-endian bytes of a signed 16-bit sample, as seen by the
`reinterpret_cast<const uint8_t*>` at line 165. -/
def int16Bytes (x : ℤ) : List ℕ :=
  [(x % 65536).toNat % 256, (x % 65536).toNat / 256]

/-- An int16 frame reinterpreted as a byte stream. -/
def samplesToBytes (audio : List ℤ) : List ℕ :=
  (audio.map int16Bytes).flatten

/-- `WakeWordDetector::process_frame` (lines 147–174): feed the MFCC
frontend, post a "features ready" token when a recompute occurred (dropped
if the queue is full), mirror the audio into the legacy ring buffer — and
return false unconditionally (the detection result is produced by the
consumer task, never by this call). -/
noncomputable def wwProcess_frame (d : DetectorState) (audio : List ℤ) :
    DetectorState × Bool :=
  if d.enabled = false ∨ d.initialized = false ∨ audio.length = 0 then (d, false)
  else
    let pr := process_samples d.mfcc audio
    let q1 := if pr.2 then
        (if d.audioQueue.length < 16 then d.audioQueue ++ [1] else d.audioQueue)
      else d.audioQueue
    let ab := (d.audioBuffer.write (samplesToBytes audio)).1
    ({ d with mfcc := pr.1, audioQueue := q1, audioBuffer := ab }, false)

/-- C10: `WakeWordDetector::process_frame` returns false for every input and
every detector state — whether disabled, uninitialized, given no samples, or
after consuming samples with or without a fresh feature matrix; detections
are only reported through the consumer task's callback. -/
theorem c10_process_frame_always_false (d : DetectorState) (audio : List ℤ) :
    (wwProcess_frame d audio).2 = false := by
  unfold wwProcess_frame
  split
  · rfl
  · rfl

end Irene
